import Mathlib

/-!
Verification of the bark LAN audio broadcast tool (receiver-side core)
against its design document.

The Rust sources are shallowly embedded: machine integers become `Nat`/`Int`
with explicit wrapping (`% 2 ^ 64`) where release-mode overflow semantics
matter, fallible operations (packet parsing, code paths that can panic)
return `Option`, and the f32 audio samples — which the verified code only
ever copies or zero-fills, never computes with — are carried by a type
parameter `α` with an explicit zero element standing in for `0f32`.

Parts of the crate referenced from the sources but not present in them
(`time.rs`, `protocol/mod.rs`, `protocol/types.rs`) are modelled from the
design document; each such definition carries a doc comment starting with
`Modelled from the spec:`.
-/

namespace Bark

/-! ## Protocol constants and time primitives -/

/-- Modelled from the spec: `protocol::SAMPLE_RATE` (R), fixed at 48000 Hz
(`protocol/mod.rs` is not in the sources; the spec fixes R = 48000). -/
def SAMPLE_RATE : Nat := 48000

/-- Modelled from the spec: `protocol::CHANNELS` (C), fixed at 2. -/
def CHANNELS : Nat := 2

/-- Modelled from the spec: `protocol::FRAMES_PER_PACKET` (F), fixed at 960. -/
def FRAMES_PER_PACKET : Nat := 960

/-- Modelled from the spec: `protocol::SAMPLES_PER_PACKET` = F·C = 1920. -/
def SAMPLES_PER_PACKET : Nat := FRAMES_PER_PACKET * CHANNELS

/-- Modelled from the spec: `SampleDuration::from_std_duration_lossy` from the
missing `time.rs`. Converts a microsecond duration to a whole number of sample
frames at rate R, truncating sub-frame precision (the spec declares the
microsecond conversions lossy). -/
def sampleDurationFromMicros (micros : Nat) : Nat :=
  micros * SAMPLE_RATE / 1000000

/-- Modelled from the spec: conversion of a signed microsecond quantity to a
signed frame count (`TimestampDelta`), truncating toward zero as Rust integer
division does. -/
def timestampDeltaFromMicros (micros : Int) : Int :=
  Int.tdiv (micros * (SAMPLE_RATE : Int)) 1000000

/-- Modelled from the spec: `Timestamp::from_micros_lossy` from the missing
`time.rs` — microseconds to a whole sample count at rate R, truncating. -/
def timestampFromMicros (micros : Nat) : Nat :=
  micros * SAMPLE_RATE / 1000000

/-- Modelled from the spec: `Timestamp::to_micros_lossy` from the missing
`time.rs` — sample count to microseconds at rate R, truncating. -/
def timestampToMicros (ts : Nat) : Nat := ts * 1000000 / SAMPLE_RATE

/-- The u64 modulus. -/
def W64 : Nat := 2 ^ 64

/-- Wrap an unbounded integer into the signed 64-bit range, as Rust
release-mode i64 arithmetic does on overflow. -/
def wrapI64 (x : Int) : Int := (x + 2 ^ 63) % 2 ^ 64 - 2 ^ 63

/-- Wrapping u64 subtraction `a - b`, as compiled in release mode. -/
def wrapU64Sub (a b : Nat) : Nat := (a % W64 + (W64 - b % W64)) % W64

/-! ## Slew rate controller — src/receive/slew.rs, `RateAdjust` -/

/-- State of `RateAdjust` (src/receive/slew.rs): just the hysteresis flag. -/
structure RateAdjust where
  slew : Bool
deriving DecidableEq, Repr

/-- Embedding of `RateAdjust::calculate` (src/receive/slew.rs lines 82-115).
The argument `offset` is a `TimestampDelta` counted in sample frames.  The
microsecond parameters (`start_slew = 2000 µs`, `stop_slew = 100 µs`,
`slew_window = 500 ms`) are converted to frames by the same lossy conversion
the source applies.  `none` means the caller falls back to the nominal rate.
The multiplication `offset.as_frames() * 1_000_000` is 64-bit and wraps in
release mode, hence the `wrapI64`. -/
def RateAdjust.calculate (s : RateAdjust) (offset : Int) :
    RateAdjust × Option Int :=
  let startSlewThreshold : Int := sampleDurationFromMicros 2000
  let stopSlewThreshold : Int := sampleDurationFromMicros 100
  if |offset| < stopSlewThreshold then
    ({ slew := false }, none)
  else if |offset| < startSlewThreshold ∧ s.slew = false then
    (s, none)
  else
    let slewDurationMicros : Int := 500000
    let baseSampleRate : Int := (SAMPLE_RATE : Int)
    let rateOffset := Int.tdiv (wrapI64 (offset * 1000000)) slewDurationMicros
    let rate := baseSampleRate + rateOffset
    let rate := max (Int.tdiv (baseSampleRate * 98) 100) rate
    let rate := min (Int.tdiv (baseSampleRate * 200) 100) rate
    ({ slew := true }, some rate)

/-- Run `RateAdjust::calculate` over a list of offsets given in microseconds
(converted to frames as a `TimestampDelta` would be), returning the value of
the slew flag observed after each call. -/
def RateAdjust.runMicros (s : RateAdjust) (offsetsMicros : List Int) :
    List Bool :=
  (offsetsMicros.foldl
    (fun (acc : RateAdjust × List Bool) m =>
      let r := acc.1.calculate (timestampDeltaFromMicros m)
      (r.1, acc.2 ++ [r.1.slew]))
    (s, [])).2

/-! ## Rolling-window aggregate — src/receive/session.rs, `Aggregate<T>` -/

/-- Embedding of `Aggregate<T>` (src/receive/session.rs lines 136-147): a
64-slot circular buffer, the number of valid slots, and the write index.
The fixed array `[T; 64]` becomes a total function on slot numbers; only
indices below 64 are ever read or written. -/
structure Aggregate (T : Type) where
  samples : Nat → T
  count : Nat
  index : Nat

/-- The `Default` impl: all slots hold `T::default()`, count and index 0. -/
def Aggregate.dflt {T : Type} (d : T) : Aggregate T :=
  { samples := fun _ => d, count := 0, index := 0 }

/-- Embedding of `Aggregate::observe`: store at the write index, saturate
`count` at 64, advance the index modulo 64. -/
def Aggregate.observe {T : Type} (a : Aggregate T) (value : T) : Aggregate T :=
  { samples := fun i => if i = a.index then value else a.samples i
    count := if a.count < 64 then a.count + 1 else a.count
    index := (a.index + 1) % 64 }

/-- The filled prefix `samples[0..count]` that `median` snapshots and sorts. -/
def Aggregate.window {T : Type} (a : Aggregate T) : List T :=
  (List.range a.count).map a.samples

/-- Embedding of `Aggregate::median`: sort a snapshot of the filled prefix
and return the element at index `count / 2`, or `none` when out of range. -/
def Aggregate.median {T : Type} [LinearOrder T] (a : Aggregate T) : Option T :=
  (List.insertionSort (· ≤ ·) a.window)[a.count / 2]?

/-- Observe a whole list of values in order. -/
def Aggregate.observeAll {T : Type} (a : Aggregate T) (l : List T) :
    Aggregate T :=
  l.foldl Aggregate.observe a

/-- Which observation (index into the full observation list of length `n`)
slot `i` of the circular buffer holds: the most recent observation whose
observation index is congruent to `i` modulo 64. -/
def windowSourceIndex (n i : Nat) : Nat :=
  if i < n % 64 then n - n % 64 + i else n - n % 64 + i - 64

/-! ## Session packet queue — src/receive/session.rs

`Session::send_packet` holds the lock on `Shared` and mutates its `queue`
and `stats` fields; `sync` and `quit` are never touched by it and are left
out of the state.  Audio payloads are only moved, never inspected, so they
are a type parameter `α`.  Code paths that panic (failed `unwrap`, failed
`assert!`, debug-mode arithmetic that release mode wraps) return `none`;
wrapping release-mode arithmetic is modelled explicitly. -/

/-- Wire-side audio packet header (`types::AudioPacketHeader`): session id,
sequence number, PTS and DTS in microseconds, all u64. -/
structure AudioPacketHeader where
  sid : Nat
  seq : Nat
  pts : Nat
  dts : Nat

/-- A parsed audio packet: header plus its payload. -/
structure AudioPacket (α : Type) where
  header : AudioPacketHeader
  audio : α

/-- Embedding of `QueuedPacket` (src/receive/session.rs lines 111-116).
`pts` is a `Timestamp` (sample counter), `consumed` a `SampleDuration` in
frames; `audio = none` marks a hole. -/
structure QueuedPacket (α : Type) where
  seq : Nat
  pts : Option Nat
  consumed : Nat
  audio : Option α

/-- Embedding of `Timing` (src/receive/session.rs lines 118-122): rolling
aggregates of network latency (µs) and clock delta (µs, signed). -/
structure Timing where
  latency : Aggregate Nat
  clockDelta : Aggregate Int

/-- Fresh `Timing::default()`. -/
def emptyTiming : Timing :=
  { latency := Aggregate.dflt 0, clockDelta := Aggregate.dflt 0 }

/-- Modelled from the spec: `pts.adjust(TimestampDelta::from_clock_delta_lossy(delta))`
subtracts the lossily frame-converted clock delta from the timestamp so the
PTS is expressed in the receiver timebase, in wrapping u64 sample units. -/
def timestampAdjust (pts : Nat) (deltaMicros : Int) : Nat :=
  (((pts : Int) - timestampDeltaFromMicros deltaMicros) % (W64 : Int)).toNat

/-- Embedding of `Timing::adjust_pts` (src/receive/session.rs lines 125-129):
`none` when no clock-delta median is available yet. -/
def Timing.adjustPts (t : Timing) (pts : Nat) : Option Nat :=
  t.clockDelta.median.map (fun delta => timestampAdjust pts delta)

/-- Embedding of `Timing::network_latency`. -/
def Timing.networkLatency (t : Timing) : Option Nat :=
  t.latency.median

/-- Bounds-checked list indexing, as `VecDeque::get_mut` behaves: compare
the index against the length, then access.  Agrees with `List.getElem?`. -/
def lookup? {β : Type} (l : List β) (n : Nat) : Option β :=
  if h : n < l.length then some (l.get ⟨n, h⟩) else none

/-- The predict-offset computation at the top of `Session::send_packet`
(src/receive/session.rs lines 60-69), with release-mode wrapping semantics:
`now - latency` wraps as u64, `-delta` wraps as i64, `checked_add_signed`
panics (`none`) on overflow via its `unwrap`, and the final `predict_diff`
is i64 arithmetic on bit-cast u64 values.  Returns the new predict-offset
stats value, or `none` for a panic. -/
def statsPredict (t : Timing) (now : Nat) (dts : Nat) : Option (Option Int) :=
  match t.networkLatency, t.clockDelta.median with
  | some latency, some clockDelta =>
    if W64 ≤ latency then none
    else
      let predictDts := wrapU64Sub now latency
      let sum : Int := (predictDts : Int) + wrapI64 (-clockDelta)
      if 0 ≤ sum ∧ sum < (W64 : Int) then
        some (some (wrapI64 (wrapI64 sum - wrapI64 (dts : Int))))
      else none
  | _, _ => some none

/-- The part of `Shared` that `Session::send_packet` reads or writes: the
packet queue, the timing state, and the predict-offset receiver stat. -/
structure SessionState (α : Type) where
  queue : List (QueuedPacket α)
  timing : Timing
  predictOffset : Option Int

/-- An empty slot, as pushed by the queue-expansion loop of
`Session::send_packet`: a hole with no PTS and no audio. -/
def holeSlot {α : Type} (s : Nat) : QueuedPacket α :=
  { seq := s, pts := none, consumed := 0, audio := none }

/-- The queue-expansion step of `Session::send_packet` (src/receive/session.rs
lines 76-97): if the queue is non-empty and the incoming sequence is past the
back, push holes for `back.seq + 1 ..= seq`; if the queue is empty, push one
hole slot for the incoming sequence. -/
def expandQueue {α : Type} (queue : List (QueuedPacket α)) (s : Nat) :
    List (QueuedPacket α) :=
  match queue.getLast? with
  | some back =>
    if back.seq < s then
      queue ++ (List.range (s - back.seq)).map
        (fun k => holeSlot (back.seq + 1 + k))
    else queue
  | none => [holeSlot s]

/-- The slot-filling step of `Session::send_packet` (src/receive/session.rs
lines 99-107): index the slot at `seq - front.seq` (wrapping u64 subtraction
followed by an unchecked `unwrap`, both modelled), `assert!` its sequence,
and store the adjusted PTS and the packet's audio.  `none` is a panic. -/
def fillSlot {α : Type} (timing : Timing) (queue : List (QueuedPacket α))
    (p : AudioPacket α) : Option (List (QueuedPacket α)) :=
  match queue.head? with
  | none => none
  | some front =>
    let idx := wrapU64Sub p.header.seq front.seq
    match lookup? queue idx with
    | none => none
    | some slot =>
      if slot.seq = p.header.seq then
        some (queue.set idx
          { slot with
            pts := timing.adjustPts (timestampFromMicros p.header.pts),
            audio := some p.audio })
      else none

/-- Embedding of `Session::send_packet` (src/receive/session.rs lines
53-108).  `sid` is the session id the `Session` was started with; `now` is
`TimestampMicros::now()`.  Returns `none` when the source panics: on the
`assert!(self.sid == ...)`, on the predict-offset arithmetic, on the
`queue.get_mut(idx).unwrap()` after the wrapping index subtraction, or on
the `assert!(slot.seq == ...)`.  Note the source enforces no `MaxSeqGap`
gate and performs no queue reset; its comment assumes the caller
guarantees the bound, but no caller in the repository does. -/
def sendPacket {α : Type} (sid : Nat) (st : SessionState α)
    (p : AudioPacket α) (now : Nat) : Option (SessionState α) :=
  if p.header.sid ≠ sid then none
  else
    match statsPredict st.timing now p.header.dts with
    | none => none
    | some newPredict =>
      let predictOffset := match newPredict with
        | some v => some v
        | none => st.predictOffset
      (fillSlot st.timing (expandQueue st.queue p.header.seq) p).map
        (fun q => { queue := q, timing := st.timing,
                    predictOffset := predictOffset })

/-- Queue contiguity: every slot's sequence number is its predecessor's
plus one (the spec's `∀ i: q[i+1].seq = q[i].seq + 1`). -/
def Contiguous {α : Type} (q : List (QueuedPacket α)) : Prop :=
  List.Chain' (fun a b => b.seq = a.seq + 1) q

/-- All sequence numbers in the queue fit in u64. -/
def SeqsBounded {α : Type} (q : List (QueuedPacket α)) : Prop :=
  ∀ e ∈ q, e.seq < W64

/-- The spec's acceptance window for an incoming sequence number: when the
queue is non-empty, `front.seq ≤ s ∧ s ≤ back.seq + MaxSeqGap`. -/
def InRange {α : Type} (maxSeqGap : Nat) (q : List (QueuedPacket α))
    (s : Nat) : Prop :=
  match q.head?, q.getLast? with
  | some front, some back => front.seq ≤ s ∧ s ≤ back.seq + maxSeqGap
  | _, _ => True

/-- A run of `send_packet` calls, each of whose sequence numbers lies inside
the spec's `MaxSeqGap` window for the queue state it encounters, and each of
which returns normally. -/
inductive ValidRun {α : Type} (maxSeqGap sid : Nat) :
    SessionState α → List (AudioPacket α × Nat) → SessionState α → Prop
  | nil : ∀ st, ValidRun maxSeqGap sid st [] st
  | cons : ∀ (st : SessionState α) (p : AudioPacket α) (now : Nat)
      (st2 stF : SessionState α) (rest : List (AudioPacket α × Nat)),
      InRange maxSeqGap st.queue p.header.seq →
      p.header.seq < W64 →
      sendPacket sid st p now = some st2 →
      ValidRun maxSeqGap sid st2 rest stF →
      ValidRun maxSeqGap sid st ((p, now) :: rest) stF

/-- Initial state for the C9 witness run: empty queue, fresh timing. -/
def wqState0 : SessionState Nat :=
  { queue := [], timing := emptyTiming, predictOffset := none }

/-- First witness packet: sequence 5. -/
def wqPacket1 : AudioPacket Nat :=
  { header := { sid := 0, seq := 5, pts := 0, dts := 0 }, audio := 11 }

/-- Second witness packet: sequence 7 (a gap of two: one hole expected). -/
def wqPacket2 : AudioPacket Nat :=
  { header := { sid := 0, seq := 7, pts := 0, dts := 0 }, audio := 22 }

/-- State after the first witness packet. -/
def wqState1 : SessionState Nat :=
  { queue := [{ seq := 5, pts := none, consumed := 0, audio := some 11 }],
    timing := emptyTiming, predictOffset := none }

/-- State after both witness packets: slots 5, 6 (hole), 7. -/
def wqState2 : SessionState Nat :=
  { queue := [{ seq := 5, pts := none, consumed := 0, audio := some 11 },
              { seq := 6, pts := none, consumed := 0, audio := none },
              { seq := 7, pts := none, consumed := 0, audio := some 22 }],
    timing := emptyTiming, predictOffset := none }

/-! ## Output buffer — src/receive/buffer.rs

Durations (`SampleDuration`) are counted in frames; buffer positions are in
samples, `CHANNELS` samples to the frame, converted exactly where the
source converts (`as_buffer_offset` is `· * CHANNELS`, `from_buffer_offset`
is `· / CHANNELS`).  The f32 samples are a type parameter `α`; `z : α`
stands for `0f32`.  Mutex acquisition is not modelled (the functions act on
the locked state); each condition-variable wait applies the next entry of
an oracle list of state transformers standing for whatever the concurrent
reader does while the writer sleeps. -/

/-- Embedding of `Span` (src/receive/buffer.rs lines 100-103). -/
structure Span where
  timestamp : Option Nat
  remaining : Nat
deriving DecidableEq, Repr

/-- Embedding of `Span::consume` (src/receive/buffer.rs lines 110-118) —
note this function is never called anywhere in the sources.  `none` is the
`assert!` panic. -/
def Span.consume (s : Span) (duration : Nat) : Option Span :=
  if duration ≤ s.remaining then
    some { timestamp := s.timestamp.map (· + duration),
           remaining := s.remaining - duration }
  else none

/-- Embedding of `Locked` (src/receive/buffer.rs lines 58-62): the sample
ring, the span list, and the published reader offset. -/
structure Locked (α : Type) where
  buffer : List α
  spans : List Span
  offset : Option Int
deriving DecidableEq, Repr

/-- The popping effect of `Locked::front_mut` (src/receive/buffer.rs lines
65-75): drop exhausted spans from the front; the head of the result, if
any, is the first span with samples remaining. -/
def dropZeroSpans : List Span → List Span
  | [] => []
  | s :: rest => if s.remaining = 0 then dropZeroSpans rest else s :: rest

/-- Embedding of `Locked::push_audio` (src/receive/buffer.rs lines 77-87):
append the samples and a span covering them; returns the duration. -/
def Locked.pushAudio {α : Type} (l : Locked α) (timestamp : Nat)
    (samples : List α) : Locked α × Nat :=
  let duration := samples.length / CHANNELS
  ({ l with
      buffer := l.buffer ++ samples,
      spans := l.spans ++ [{ timestamp := some timestamp,
                             remaining := duration }] },
   duration)

/-- Embedding of `Locked::push_silence` (src/receive/buffer.rs lines
89-97). -/
def Locked.pushSilence {α : Type} (z : α) (l : Locked α) (duration : Nat) :
    Locked α :=
  { l with
      buffer := l.buffer ++ List.replicate (duration * CHANNELS) z,
      spans := l.spans ++ [{ timestamp := none, remaining := duration }] }

/-- The copy loop of `StreamReader::read` (src/receive/buffer.rs lines
157-180).  Returns the locked state and the samples written to the output
slice; `none` is a panic (`buffer.pop_front().unwrap()` on an empty ring).
The loop body never decrements a span, so an iteration makes progress only
through the output slice shrinking; `fuel` (set to `n + 1` by the caller,
an upper bound on the iteration count) makes the recursion structural, and
the `copyLen = 0` guard cuts the path — unreachable from a frame-aligned
call — on which the Rust loop would not progress. -/
def readLoop {α : Type} (z : α) (bufferSize : Nat) :
    Nat → Locked α → Nat → Option (Locked α × List α)
  | 0, _, _ => none
  | fuel + 1, locked, n =>
    if n = 0 then some (locked, [])
    else
      match dropZeroSpans locked.spans with
      | [] =>
        -- underrun: fill the rest of the output with zeroes and push a
        -- whole buffer duration of silence
        some ((Locked.pushSilence z { locked with spans := [] }
                (bufferSize / CHANNELS)),
              List.replicate n z)
      | span :: rest =>
        let outputDuration := n / CHANNELS
        let copyDuration := min outputDuration span.remaining
        let copyLen := copyDuration * CHANNELS
        if copyLen = 0 then none
        else if locked.buffer.length < copyLen then none
        else
          match readLoop z bufferSize fuel
            { locked with buffer := locked.buffer.drop copyLen,
                          spans := span :: rest }
            (n - copyLen) with
          | none => none
          | some (locked2, out) =>
            some (locked2, locked.buffer.take copyLen ++ out)

/-- Embedding of `StreamReader::read` (src/receive/buffer.rs lines
145-185): assert frame alignment, publish the reader offset from the front
span, run the copy loop, and notify the writers (the `Bool` in the
result). -/
def streamReaderRead {α : Type} (z : α) (bufferSize : Nat)
    (locked : Locked α) (pts : Nat) (n : Nat) :
    Option (Locked α × List α × Bool) :=
  if n % CHANNELS ≠ 0 then none
  else
    let locked := { locked with
      offset := (locked.spans.head?.bind Span.timestamp).map
        (fun ts => (pts : Int) - (ts : Int)) }
    match readLoop z bufferSize (n + 1) locked n with
    | none => none
    | some (locked2, out) => some (locked2, out, true)

/-- Embedding of the loop of `StreamWriter::write` (src/receive/buffer.rs
lines 128-141): copy what fits (`buffer_size - buffer.len()` is a usize
subtraction, wrapping in release mode), push the span, then wait on the
condition variable — unconditionally, even when everything has been
copied.  Each wait applies the next oracle transformer.  The result counts
the waits; `fuel` bounds the loop, whose termination depends on the
concurrent reader. -/
def writeLoop {α : Type} (bufferSize : Nat) :
    List (Locked α → Locked α) → Locked α → Nat → List α → Nat →
    Option (Locked α × Nat)
  | _, _, _, _, 0 => none
  | waitEffects, locked, pts, samples, fuel + 1 =>
    if samples.length = 0 then some (locked, 0)
    else
      let bufferFree := wrapU64Sub bufferSize locked.buffer.length
      let copyLen := min samples.length bufferFree
      let source := samples.take copyLen
      let next := samples.drop copyLen
      let pushed := locked.pushAudio pts source
      let locked2 := (waitEffects.headD id) pushed.1
      match writeLoop bufferSize waitEffects.tail locked2 (pts + pushed.2)
        next fuel with
      | none => none
      | some (locked3, waits) => some (locked3, waits + 1)

/-- Embedding of `StreamWriter::write` (src/receive/buffer.rs lines
121-142): assert frame alignment, then run the loop. -/
def streamWriterWrite {α : Type} (bufferSize : Nat)
    (waitEffects : List (Locked α → Locked α)) (locked : Locked α)
    (pts : Nat) (samples : List α) (fuel : Nat) : Option (Locked α × Nat) :=
  if samples.length % CHANNELS ≠ 0 then none
  else writeLoop bufferSize waitEffects locked pts samples fuel

/-! ## Packet parsing — src/protocol/packet.rs

Parsing only inspects the header magic, the header flags, and the payload
length, so a wire packet is modelled by those three fields.  The struct
sizes come from the spec (`protocol/types.rs` is not in the sources). -/

/-- Modelled from the spec: `size_of::<types::AudioPacketHeader>()` — four
u64 fields (`sid`, `seq`, `pts`, `dts`), 32 bytes. -/
def sizeAudioPacketHeader : Nat := 32

/-- Modelled from the spec: `size_of::<types::AudioPacketBuffer>()` — F·C
f32 samples, 7680 bytes. -/
def sizeAudioPacketBuffer : Nat := SAMPLES_PER_PACKET * 4

/-- Modelled from the spec: `size_of::<types::TimePacket>()` — six u64
fields (`sid`, `rid`, `stream_1`, `receive_2`, `stream_3`, `receive_4`),
48 bytes. -/
def sizeTimePacket : Nat := 48

/-- `Audio::LENGTH` (src/protocol/packet.rs lines 102-104). -/
def audioPacketLength : Nat := sizeAudioPacketHeader + sizeAudioPacketBuffer

/-- `Time::LENGTH` (src/protocol/packet.rs line 219): time packets are
padded to the exact audio packet length. -/
def timePacketLength : Nat := audioPacketLength

/-- The header magic values (`types::Magic`). -/
inductive Magic where
  | audio
  | time
  | statsReq
  | statsReply
  | other (v : Nat)
deriving DecidableEq, Repr

/-- A received wire packet as far as `Packet::parse` inspects it: header
magic, header flags (u32) and payload length (bytes after the 16-byte
packet header). -/
structure WirePacket where
  magic : Magic
  flags : Nat
  len : Nat
deriving DecidableEq, Repr

/-- Embedding of `Audio::parse` (src/protocol/packet.rs lines 115-125):
exact length, zero flags. -/
def audioParse (p : WirePacket) : Option WirePacket :=
  if p.len ≠ audioPacketLength then none
  else if p.flags ≠ 0 then none
  else some p

/-- Embedding of `Time::parse` (src/protocol/packet.rs lines 230-242):
length at least `Time::LENGTH` (= the padded audio packet length), zero
flags. -/
def timeParse (p : WirePacket) : Option WirePacket :=
  if p.len < timePacketLength then none
  else if p.flags ≠ 0 then none
  else some p

/-- Embedding of `StatsRequest::parse` (src/protocol/packet.rs lines
265-275): empty payload, zero flags. -/
def statsRequestParse (p : WirePacket) : Option WirePacket :=
  if p.len ≠ 0 then none
  else if p.flags ≠ 0 then none
  else some p

/-- Embedding of `StatsReply::parse` (src/protocol/packet.rs lines
314-320): exact length (`size_of::<StatsReplyPacket>()`, whose value —
taken as the parameter `srLen` since the stats structs' node block is not
specified — is irrelevant to the other packet kinds); flags carry the role
bits and are not checked. -/
def statsReplyParse (srLen : Nat) (p : WirePacket) : Option WirePacket :=
  if p.len ≠ srLen then none
  else some p

/-- A successfully parsed packet (`PacketKind`). -/
inductive PacketKind where
  | audio (p : WirePacket)
  | time (p : WirePacket)
  | statsRequest (p : WirePacket)
  | statsReply (p : WirePacket)
deriving DecidableEq, Repr

/-- Embedding of `Packet::parse` (src/protocol/packet.rs lines 47-55):
dispatch on the magic, dropping unknown magics. -/
def packetParse (srLen : Nat) (p : WirePacket) : Option PacketKind :=
  match p.magic with
  | .audio => (audioParse p).map PacketKind.audio
  | .time => (timeParse p).map PacketKind.time
  | .statsReq => (statsRequestParse p).map PacketKind.statsRequest
  | .statsReply => (statsReplyParse srLen p).map PacketKind.statsReply
  | .other _ => none

/-! ## Source encoder — src/source/encode.rs and `AudioWriter`

`AudioWriter` (src/protocol/packet.rs lines 164-209) accumulates samples
into one packet of `FRAMES_PER_PACKET` frames; `PcmFloat32::write` feeds a
captured buffer into successive packets. -/

/-- Embedding of `AudioWriter`: the frames written so far and the samples
they contain. -/
structure AudioWriter (α : Type) where
  written : Nat
  samples : List α
deriving DecidableEq, Repr

/-- Embedding of `AudioWriter::write` (src/protocol/packet.rs lines
187-199): copy at most `remaining()` frames, advance `written`, return the
copied duration. -/
def AudioWriter.write {α : Type} (w : AudioWriter α) (audio : List α) :
    AudioWriter α × Nat :=
  let inputDuration := audio.length / CHANNELS
  let copyDuration := min inputDuration (FRAMES_PER_PACKET - w.written)
  let copyLen := copyDuration * CHANNELS
  ({ written := w.written + copyDuration,
     samples := w.samples ++ audio.take copyLen },
   copyDuration)

/-- State of the `PcmFloat32` encoder: the packet being filled (with the
PTS it was opened at), the sequence counter, and the packets broadcast so
far, each recorded as (seq, pts in µs, payload samples). -/
structure PcmFloat32 (α : Type) where
  packet : Option (AudioWriter α × Nat)
  seq : Nat
  sent : List (Nat × Nat × List α)
deriving DecidableEq, Repr

/-- A fresh `PcmFloat32` encoder (`Sequence::new()` starts at 1). -/
def PcmFloat32.new {α : Type} : PcmFloat32 α :=
  { packet := none, seq := 1, sent := [] }

/-- The loop of `PcmFloat32::write` (src/source/encode.rs lines 49-71).
Each iteration writes into the current packet, advances the PTS, then
executes `data = &data[duration.as_buffer_offset()..0]` — a slice whose
start index exceeds its end index 0 whenever `duration > 0`, which panics
(`none`); when `duration = 0` the slice is empty and the loop exits after
the full-packet check.  `fuel` (the caller passes `data.length + 1`) makes
the recursion structural. -/
def pcmWriteLoop {α : Type} : Nat → PcmFloat32 α → List α → Nat →
    Option (PcmFloat32 α)
  | 0, _, _, _ => none
  | fuel + 1, st, data, pts =>
    if data.length = 0 then some st
    else
      let pkt := st.packet.getD ({ written := 0, samples := [] }, pts)
      let written := pkt.1.write data
      let st2 : PcmFloat32 α := { st with packet := some (written.1, pkt.2) }
      let copyLen := written.2 * CHANNELS
      if copyLen = 0 then
        -- &data[0..0]: empty remainder; run the full-packet check and loop
        let st3 := match st2.packet with
          | some (w, p0) =>
            if w.written = FRAMES_PER_PACKET then
              { packet := none, seq := st2.seq + 1,
                sent := st2.sent ++ [(st2.seq, timestampToMicros p0,
                                      w.samples)] }
            else st2
          | none => st2
        pcmWriteLoop fuel st3 [] (pts + written.2)
      else none

/-- Embedding of `PcmFloat32::write` (the `Encoder` impl). -/
def pcmFloat32Write {α : Type} (st : PcmFloat32 α) (data : List α)
    (pts : Nat) : Option (PcmFloat32 α) :=
  pcmWriteLoop (data.length + 1) st data pts

/-! ## Theorems -/

theorem lookup?_eq_getElem? {β : Type} (l : List β) (n : Nat) :
    lookup? l n = l[n]? := by
  unfold lookup?
  split
  · rw [List.getElem?_eq_getElem]
    rfl
  · rw [List.getElem?_eq_none (by omega)]

theorem wrapU64Sub_eq_sub {a b : Nat} (h : b ≤ a) (ha : a < W64) :
    wrapU64Sub a b = a - b := by
  unfold wrapU64Sub W64 at *
  omega

/-- C7: the slew controller implements hysteresis on its flag: below the stop
threshold the flag is cleared and the nominal rate used (`none`); between the
thresholds with the flag clear, the nominal rate is used and the flag stays
clear; otherwise the flag is set and an adjusted rate is returned.  The two
offset traversals behave as the spec predicts: `0 → 1500 µs → 0` never sets
the flag, and `0 → 3000 µs → 500 µs → 50 µs` sets it for the middle values
and clears it at the end. -/
theorem rateAdjust_hysteresis :
    (∀ (s : RateAdjust) (offset : Int),
      |offset| < (sampleDurationFromMicros 100 : Int) →
      s.calculate offset = ({ slew := false }, none)) ∧
    (∀ (s : RateAdjust) (offset : Int),
      (sampleDurationFromMicros 100 : Int) ≤ |offset| →
      |offset| < (sampleDurationFromMicros 2000 : Int) →
      s.slew = false →
      s.calculate offset = (s, none)) ∧
    (∀ (s : RateAdjust) (offset : Int),
      (sampleDurationFromMicros 100 : Int) ≤ |offset| →
      ((sampleDurationFromMicros 2000 : Int) ≤ |offset| ∨ s.slew = true) →
      (s.calculate offset).1.slew = true ∧ (s.calculate offset).2.isSome) ∧
    RateAdjust.runMicros { slew := false } [0, 1500, 0] =
      [false, false, false] ∧
    RateAdjust.runMicros { slew := false } [0, 3000, 500, 50] =
      [false, true, true, false] := by
  refine ⟨?_, ?_, ?_, by decide, by decide⟩
  · intro s offset h
    simp only [RateAdjust.calculate]
    rw [if_pos h]
  · intro s offset h1 h2 h3
    simp only [RateAdjust.calculate]
    rw [if_neg (by omega), if_pos ⟨h2, h3⟩]
  · intro s offset h1 h2
    simp only [RateAdjust.calculate]
    rw [if_neg (by omega), if_neg (by rcases h2 with h | h <;> simp [h])]
    simp

/-- Witness for C7 at concrete inputs. -/
theorem rateAdjust_hysteresis_witness :
    RateAdjust.calculate { slew := true } 0 = ({ slew := false }, none) ∧
    RateAdjust.calculate { slew := false } 24 = ({ slew := false }, none) ∧
    ((RateAdjust.calculate { slew := false } 144).1.slew = true ∧
      (RateAdjust.calculate { slew := false } 144).2.isSome) :=
  ⟨rateAdjust_hysteresis.1 { slew := true } 0 (by decide),
   rateAdjust_hysteresis.2.1 { slew := false } 24 (by decide) (by decide) rfl,
   rateAdjust_hysteresis.2.2.1 { slew := false } 144 (by decide)
     (Or.inl (by decide))⟩

/-- C8: every rate the slew controller actually returns lies within the clamp
bounds: at least 0.98·R = 47040 and at most 2·R = 96000, for every input
offset (including arbitrarily large ones, whose 64-bit product wraps); hence
the `u32::try_from` conversion of the rate never fails. -/
theorem rateAdjust_clamp (s : RateAdjust) (offset : Int) (r : Int)
    (h : (s.calculate offset).2 = some r) :
    47040 ≤ r ∧ r ≤ 96000 ∧ 0 ≤ r ∧ r < 2 ^ 32 := by
  simp only [RateAdjust.calculate] at h
  split at h
  · simp at h
  · split at h
    · simp at h
    · simp only [Option.some.injEq] at h
      have h98 : Int.tdiv ((SAMPLE_RATE : Int) * 98) 100 = 47040 := by decide
      have h200 : Int.tdiv ((SAMPLE_RATE : Int) * 200) 100 = 96000 := by decide
      rw [h98, h200] at h
      have hle : r ≤ 96000 := h ▸ min_le_left _ _
      have hge : 47040 ≤ r :=
        h ▸ le_min (by norm_num) (le_max_left _ _)
      exact ⟨hge, hle, by omega, by omega⟩

/-- Witness for C8 at a concrete offset in the slew region. -/
theorem rateAdjust_clamp_witness :
    47040 ≤ (48400 : Int) ∧ (48400 : Int) ≤ 96000 ∧
      (0 : Int) ≤ 48400 ∧ (48400 : Int) < 2 ^ 32 :=
  rateAdjust_clamp { slew := false } 200 48400 (by decide)

theorem windowSourceIndex_lt {n i : Nat} (hi : i < min n 64) :
    windowSourceIndex n i < n := by
  unfold windowSourceIndex
  split <;> omega

/-- After observing the list `l` from the default state: `count` saturates at
64, `index` wraps modulo 64, and each filled slot holds exactly the
observation `windowSourceIndex` points at — i.e. the window holds the last
`min n 64` observations, older ones overwritten circularly. -/
theorem aggregate_observeAll_invariant {T : Type} (d : T) (l : List T) :
    (Aggregate.observeAll (Aggregate.dflt d) l).count = min l.length 64 ∧
    (Aggregate.observeAll (Aggregate.dflt d) l).index = l.length % 64 ∧
    ∀ i < min l.length 64,
      (Aggregate.observeAll (Aggregate.dflt d) l).samples i =
        l.getD (windowSourceIndex l.length i) d := by
  induction l using List.reverseRecOn with
  | nil => exact ⟨rfl, rfl, by intro i hi; simp at hi⟩
  | append_singleton l v ih =>
    obtain ⟨hcount, hindex, hsamples⟩ := ih
    have hfold : Aggregate.observeAll (Aggregate.dflt d) (l ++ [v]) =
        (Aggregate.observeAll (Aggregate.dflt d) l).observe v := by
      simp [Aggregate.observeAll, List.foldl_append]
    set n := l.length with hn
    have hlen : (l ++ [v]).length = n + 1 := by simp
    refine ⟨?_, ?_, ?_⟩
    · rw [hfold, hlen]
      simp only [Aggregate.observe, hcount, Nat.min_def]
      split_ifs <;> omega
    · rw [hfold, hlen]
      simp only [Aggregate.observe, hindex]
      omega
    · intro i hi
      rw [hfold, hlen]
      simp only [Aggregate.observe, hindex]
      rw [hlen] at hi
      have hi64 : i < n + 1 ∧ i < 64 := lt_min_iff.mp hi
      by_cases hieq : i = n % 64
      · rw [if_pos hieq, hieq]
        have hws : windowSourceIndex (n + 1) (n % 64) = n := by
          unfold windowSourceIndex
          split <;> omega
        rw [hws]
        simp [List.getD]
      · rw [if_neg hieq]
        have hi' : i < min n 64 := lt_min_iff.mpr ⟨by omega, hi64.2⟩
        have hws : windowSourceIndex (n + 1) i = windowSourceIndex n i := by
          unfold windowSourceIndex
          split <;> split <;> omega
        rw [hws, hsamples i hi',
          List.getD_append _ _ _ _ (windowSourceIndex_lt hi')]

/-- C6: from the default state, `median` is `none` exactly when no value has
been observed; the window retains at most the last 64 observations, older
ones overwritten circularly (count saturates at 64 and every filled slot
holds the most recent observation for its residue class); and observing
`[3,1,4,1,5,9,2,6,5,3,5]` yields median `some 4` — the element at index
`count / 2 = 5` of the sorted snapshot. -/
theorem aggregate_median_spec :
    (∀ (l : List Int),
      (Aggregate.observeAll (Aggregate.dflt 0) l).median = none ↔ l = []) ∧
    (∀ (l : List Int),
      (Aggregate.observeAll (Aggregate.dflt 0) l).count = min l.length 64) ∧
    (∀ (l : List Int) (i : Nat), i < min l.length 64 →
      (Aggregate.observeAll (Aggregate.dflt 0) l).samples i =
        l.getD (windowSourceIndex l.length i) 0) ∧
    (Aggregate.observeAll (Aggregate.dflt 0)
      [3, 1, 4, 1, 5, 9, 2, 6, 5, 3, 5]).median = some 4 := by
  refine ⟨?_, fun l => (aggregate_observeAll_invariant 0 l).1,
    fun l => (aggregate_observeAll_invariant 0 l).2.2, by decide⟩
  intro l
  have hcount := (aggregate_observeAll_invariant (0 : Int) l).1
  unfold Aggregate.median
  set a := Aggregate.observeAll (Aggregate.dflt (0 : Int)) l with ha
  have hwin : a.window.length = a.count := by
    simp [Aggregate.window]
  have hsorted : (List.insertionSort (· ≤ ·) a.window).length = a.count := by
    rw [List.length_insertionSort, hwin]
  constructor
  · intro hnone
    have := List.getElem?_eq_none_iff.mp hnone
    rw [hsorted] at this
    have : a.count = 0 := by omega
    rw [hcount] at this
    rcases l with _ | ⟨x, xs⟩
    · rfl
    · simp at this
  · intro hl
    subst hl
    rfl

/-- Witness for C6 at a concrete observation list. -/
theorem aggregate_median_spec_witness :
    ((Aggregate.observeAll (Aggregate.dflt (0 : Int)) [7]).median = none ↔
      ([7] : List Int) = []) ∧
    (Aggregate.observeAll (Aggregate.dflt (0 : Int)) [7]).samples 0 =
      ([7] : List Int).getD (windowSourceIndex 1 0) 0 :=
  ⟨aggregate_median_spec.1 [7],
   aggregate_median_spec.2.2.1 [7] 0 (by decide)⟩

/-- C1: refutation by evaluation.  With a non-empty queue whose front (and
back) sequence is 5 and no timing medians, an incoming packet with sequence
3 — below the front, hence out of the accepted range — makes
`Session::send_packet` panic (the wrapping subtraction `3 - 5` yields
`2^64 - 2` and `queue.get_mut(..).unwrap()` fails); the queue is never
reset.  And a packet with sequence 18 = back + 13, beyond `MaxSeqGap = 12`,
is inserted anyway (queue grows to 14 slots) instead of causing a reset. -/
theorem sendPacket_no_gap_gate :
    sendPacket 0
      { queue := [{ seq := 5, pts := none, consumed := 0,
                    audio := (none : Option Nat) }],
        timing := emptyTiming, predictOffset := none }
      { header := { sid := 0, seq := 3, pts := 0, dts := 0 }, audio := 7 }
      0 = none ∧
    (sendPacket 0
      { queue := [{ seq := 5, pts := none, consumed := 0,
                    audio := (none : Option Nat) }],
        timing := emptyTiming, predictOffset := none }
      { header := { sid := 0, seq := 18, pts := 0, dts := 0 }, audio := 7 }
      0).map (fun st => st.queue.length) = some 14 := by
  constructor
  · rfl
  · rfl

theorem contiguous_getElem {α : Type} {q : List (QueuedPacket α)}
    (h : Contiguous q) (i : Nat) (hi : i < q.length) (h0 : 0 < q.length) :
    q[i].seq = q[0].seq + i := by
  induction i with
  | zero => rfl
  | succ k ih =>
    have hk : k < q.length := by omega
    have step := List.chain'_iff_get.mp h k (by omega)
    simp only [List.get_eq_getElem] at step
    rw [step, ih hk]
    omega

theorem contiguous_set {α : Type} {q : List (QueuedPacket α)}
    (h : Contiguous q) (i : Nat) (e : QueuedPacket α)
    (hi : i < q.length) (hseq : e.seq = q[i].seq) :
    Contiguous (q.set i e) := by
  rw [Contiguous, List.chain'_iff_get]
  intro j hj
  simp only [List.length_set] at hj
  have hchain := List.chain'_iff_get.mp h
  simp only [List.get_eq_getElem] at hchain ⊢
  have hj1 : j < q.length := by omega
  have hj2 : j + 1 < q.length := by omega
  rw [List.getElem_set, List.getElem_set]
  have := hchain j hj
  split <;> split <;> simp_all

theorem range_holes_chain {α : Type} (b n : Nat) :
    List.Chain' (fun a c : QueuedPacket α => c.seq = a.seq + 1)
      ((List.range n).map (fun k => holeSlot (b + 1 + k))) := by
  rw [List.chain'_iff_get]
  intro i hi
  simp only [List.length_map, List.length_range] at hi
  simp only [List.get_eq_getElem, List.getElem_map, List.getElem_range,
    holeSlot]
  omega

/-- Effect of `expandQueue`: contiguity is preserved, the head is preserved
(or created for the empty queue), every element is an old element or a
hole, the front stays at most `s`, the target index `s - front.seq` is in
range, and sequence bounds are preserved. -/
theorem expandQueue_spec {α : Type} (q : List (QueuedPacket α)) (s : Nat)
    (hcont : Contiguous q) (hfront : ∀ f ∈ q.head?, f.seq ≤ s)
    (hbound : SeqsBounded q) (hs : s < W64) :
    Contiguous (expandQueue q s) ∧
    (∃ h0 : 0 < (expandQueue q s).length,
      (expandQueue q s)[0].seq ≤ s ∧
      s - (expandQueue q s)[0].seq < (expandQueue q s).length) ∧
    (∀ e ∈ expandQueue q s, e ∈ q ∨ (e.pts = none ∧ e.audio = none)) ∧
    SeqsBounded (expandQueue q s) := by
  rcases q with _ | ⟨f, rest⟩
  · refine ⟨?_, ⟨by simp [expandQueue], ?_, ?_⟩, ?_, ?_⟩
    · simp [expandQueue, Contiguous]
    · simp [expandQueue, holeSlot]
    · simp [expandQueue, holeSlot]
    · intro e he
      simp [expandQueue, holeSlot] at he
      simp [he, holeSlot]
    · intro e he
      simp [expandQueue, holeSlot] at he
      simp [he, holeSlot, hs]
  · set q := f :: rest with hq
    have hqne : q ≠ [] := by simp [hq]
    obtain ⟨back, hback⟩ : ∃ b, q.getLast? = some b :=
      ⟨q.getLast hqne, List.getLast?_eq_getLast q hqne⟩
    have hq0 : 0 < q.length := by simp [hq]
    have hfle : q[0].seq ≤ s := by
      apply hfront
      rw [List.head?_eq_getElem?, List.getElem?_eq_getElem hq0]
      rfl
    have hbackeq : back = q[q.length - 1] := by
      rw [List.getLast?_eq_getElem?] at hback
      rw [List.getElem?_eq_getElem (by omega)] at hback
      exact (Option.some_inj.mp hback).symm
    have hbackseq : back.seq = q[0].seq + (q.length - 1) := by
      rw [hbackeq]
      rw [contiguous_getElem hcont (q.length - 1) (by omega) hq0]
    have hexp : expandQueue q s =
        if back.seq < s then
          q ++ (List.range (s - back.seq)).map
            (fun k => holeSlot (back.seq + 1 + k))
        else q := by
      unfold expandQueue
      rw [hback]
    rw [hexp]
    split
    · -- back.seq < s : holes appended
      rename_i hlt
      set holes := (List.range (s - back.seq)).map
        (fun k => holeSlot (α := α) (back.seq + 1 + k)) with hholes
      have hhlen : holes.length = s - back.seq := by simp [hholes]
      have hlen : (q ++ holes).length = q.length + (s - back.seq) := by
        simp [hhlen]
      refine ⟨?_, ⟨by simp [hq], ?_, ?_⟩, ?_, ?_⟩
      · rw [Contiguous, List.chain'_append]
        refine ⟨hcont, range_holes_chain back.seq _, ?_⟩
        intro x hx y hy
        rw [hback] at hx
        simp only [Option.mem_def, Option.some_inj] at hx
        subst hx
        have : holes[0]? = some (holeSlot (back.seq + 1)) := by
          rw [List.getElem?_eq_getElem (by omega)]
          simp [hholes, holeSlot]
        rw [List.head?_eq_getElem?, this] at hy
        simp only [Option.mem_def, Option.some_inj] at hy
        subst hy
        simp [holeSlot]
      · rw [List.getElem_append_left hq0]
        exact le_of_lt (by omega)
      · rw [List.getElem_append_left hq0, hlen]
        omega
      · intro e he
        rw [List.mem_append] at he
        rcases he with he | he
        · exact Or.inl he
        · right
          simp only [hholes, List.mem_map] at he
          obtain ⟨k, _, hk⟩ := he
          rw [← hk]
          simp [holeSlot]
      · intro e he
        rw [List.mem_append] at he
        rcases he with he | he
        · exact hbound e he
        · simp only [hholes, List.mem_map] at he
          obtain ⟨k, hkmem, hk⟩ := he
          simp only [List.mem_range] at hkmem
          rw [← hk]
          simp only [holeSlot]
          omega
    · -- s ≤ back.seq : queue unchanged
      exact ⟨hcont, ⟨hq0, hfle, by omega⟩, fun e he => Or.inl he, hbound⟩

/-- Effect of a successful `fillSlot` on a contiguous queue that covers the
incoming sequence: the target slot receives the packet's audio and the
adjusted PTS, all other slots are untouched, and contiguity is preserved. -/
theorem fillSlot_spec {α : Type} (timing : Timing)
    (q : List (QueuedPacket α)) (p : AudioPacket α)
    (hcont : Contiguous q) (h0 : 0 < q.length)
    (hfle : q[0].seq ≤ p.header.seq)
    (hcover : p.header.seq - q[0].seq < q.length)
    (hs : p.header.seq < W64) :
    ∃ q2, fillSlot timing q p = some q2 ∧
      Contiguous q2 ∧
      q2.length = q.length ∧
      (∃ hi : p.header.seq - q[0].seq < q2.length,
        q2[p.header.seq - q[0].seq].seq = p.header.seq ∧
        q2[p.header.seq - q[0].seq].audio = some p.audio ∧
        q2[p.header.seq - q[0].seq].pts =
          timing.adjustPts (timestampFromMicros p.header.pts)) ∧
      (∀ e ∈ q2, e ∈ q ∨
        (e.seq = p.header.seq ∧ e.audio = some p.audio)) := by
  have hhead : q.head? = some q[0] := by
    rw [List.head?_eq_getElem?, List.getElem?_eq_getElem h0]
  set idx := p.header.seq - q[0].seq with hidx
  have hwrap : wrapU64Sub p.header.seq q[0].seq = idx :=
    wrapU64Sub_eq_sub hfle hs
  have hslot : lookup? q idx = some q[idx] := by
    unfold lookup?
    rw [dif_pos hcover]
    rfl
  have hslotseq : q[idx].seq = p.header.seq := by
    rw [contiguous_getElem hcont idx hcover h0]
    omega
  refine ⟨q.set idx
    { q[idx] with
      pts := timing.adjustPts (timestampFromMicros p.header.pts),
      audio := some p.audio }, ?_, ?_, ?_, ?_, ?_⟩
  · unfold fillSlot
    rw [hhead]
    simp only
    rw [hwrap, hslot]
    simp only
    rw [if_pos hslotseq]
  · exact contiguous_set hcont idx _ hcover rfl
  · simp [List.length_set]
  · refine ⟨by simp [List.length_set, hcover], ?_, ?_, ?_⟩
    · rw [List.getElem_set, if_pos rfl]
      exact hslotseq
    · rw [List.getElem_set, if_pos rfl]
    · rw [List.getElem_set, if_pos rfl]
  · intro e he
    rcases List.mem_or_eq_of_mem_set he with h | h
    · exact Or.inl h
    · right
      rw [h]
      exact ⟨hslotseq, rfl⟩

/-- One successful `send_packet` call with an in-range sequence preserves
contiguity and the sequence bound, leaves the timing state alone, fills the
slot for the received sequence, and creates only holes besides it. -/
theorem sendPacket_step {α : Type} {maxSeqGap : Nat} (sid : Nat)
    {st st2 : SessionState α} {p : AudioPacket α} {now : Nat}
    (hcont : Contiguous st.queue) (hbound : SeqsBounded st.queue)
    (hs : p.header.seq < W64)
    (hin : InRange maxSeqGap st.queue p.header.seq)
    (hsend : sendPacket sid st p now = some st2) :
    Contiguous st2.queue ∧ SeqsBounded st2.queue ∧
    st2.timing = st.timing ∧
    (∃ i, ∃ hi : i < st2.queue.length,
      st2.queue[i].seq = p.header.seq ∧
      st2.queue[i].audio = some p.audio ∧
      st2.queue[i].pts =
        st.timing.adjustPts (timestampFromMicros p.header.pts)) ∧
    (∀ e ∈ st2.queue, e ∈ st.queue ∨
      (e.seq = p.header.seq ∧ e.audio = some p.audio) ∨
      (e.pts = none ∧ e.audio = none)) := by
  have hfront : ∀ f ∈ st.queue.head?, f.seq ≤ p.header.seq := by
    intro f hf
    unfold InRange at hin
    rcases hq : st.queue with _ | ⟨a, rest⟩
    · rw [hq] at hf
      simp at hf
    · have hlast := List.getLast?_eq_getLast (a :: rest) (by simp)
      rw [hq] at hf hin
      rw [hlast] at hin
      simp only [List.head?_cons] at hf hin
      simp only [Option.mem_def, Option.some_inj] at hf
      subst hf
      exact hin.1
  obtain ⟨hcontE, ⟨h0E, hfleE, hcoverE⟩, hmemE, hboundE⟩ :=
    expandQueue_spec st.queue p.header.seq hcont hfront hbound hs
  obtain ⟨q2, hfill, hcont2, hlen2, ⟨hi2, hseq2, haudio2, hpts2⟩, hmem2⟩ :=
    fillSlot_spec st.timing (expandQueue st.queue p.header.seq) p
      hcontE h0E hfleE hcoverE hs
  unfold sendPacket at hsend
  split at hsend
  · exact absurd hsend (by simp)
  · rcases hsp : statsPredict st.timing now p.header.dts with _ | np
    · rw [hsp] at hsend
      simp at hsend
    · rw [hsp] at hsend
      simp only [hfill, Option.map_some, Option.map_some', Option.some_inj]
        at hsend
      have hq2 : st2.queue = q2 := by rw [← hsend]
      have htm : st2.timing = st.timing := by rw [← hsend]
      subst hq2
      refine ⟨hcont2, ?_, htm, ?_, ?_⟩
      · intro e he
        rcases hmem2 e he with hmem | ⟨hseq, _⟩
        · rcases hmemE e hmem with hold | _
          · exact hbound e hold
          · exact hboundE e hmem
        · rw [hseq]
          exact hs
      · exact ⟨_, hi2, hseq2, haudio2, hpts2⟩
      · intro e he
        rcases hmem2 e he with hmem | hfilled
        · rcases hmemE e hmem with hold | hhole
          · exact Or.inl hold
          · exact Or.inr (Or.inr hhole)
        · exact Or.inr (Or.inl hfilled)

theorem validRun_invariants {α : Type} {maxSeqGap sid : Nat}
    {st stF : SessionState α} {calls : List (AudioPacket α × Nat)}
    (hrun : ValidRun maxSeqGap sid st calls stF)
    (hcont : Contiguous st.queue) (hbound : SeqsBounded st.queue) :
    Contiguous stF.queue ∧ SeqsBounded stF.queue := by
  induction hrun with
  | nil st => exact ⟨hcont, hbound⟩
  | cons st p now st2 stF rest hin hs hsend hrest ih =>
    obtain ⟨h1, h2, _, _, _⟩ := sendPacket_step sid hcont hbound hs hin hsend
    exact ih h1 h2

/-- C9: after any run of `send_packet` calls whose sequence numbers satisfy
the gap bound (and which return normally — a panicking call has no
after-state), the queue is contiguous: adjacent slots differ by exactly one
in sequence.  Moreover each single in-range call fills the slot of the
received sequence with the packet's audio and the clock-delta-adjusted PTS
(`none` when no median is available), and any slot it creates besides that
one is a hole with no PTS and no audio. -/
theorem sendPacket_queue_contiguity {α : Type} (maxSeqGap sid : Nat) :
    (∀ (st stF : SessionState α) (calls : List (AudioPacket α × Nat)),
      Contiguous st.queue → SeqsBounded st.queue →
      ValidRun maxSeqGap sid st calls stF →
      ∀ (i : Nat) (hi : i + 1 < stF.queue.length),
        stF.queue[i + 1].seq = stF.queue[i].seq + 1) ∧
    (∀ (st st2 : SessionState α) (p : AudioPacket α) (now : Nat),
      Contiguous st.queue → SeqsBounded st.queue →
      p.header.seq < W64 → InRange maxSeqGap st.queue p.header.seq →
      sendPacket sid st p now = some st2 →
      (∃ i, ∃ hi : i < st2.queue.length,
        st2.queue[i].seq = p.header.seq ∧
        st2.queue[i].audio = some p.audio ∧
        st2.queue[i].pts =
          st.timing.adjustPts (timestampFromMicros p.header.pts)) ∧
      (∀ e ∈ st2.queue, e ∈ st.queue ∨
        (e.seq = p.header.seq ∧ e.audio = some p.audio) ∨
        (e.pts = none ∧ e.audio = none))) := by
  constructor
  · intro st stF calls hcont hbound hrun i hi
    have hfinal := (validRun_invariants hrun hcont hbound).1
    have := List.chain'_iff_get.mp hfinal i (by omega)
    simpa using this
  · intro st st2 p now hcont hbound hs hin hsend
    obtain ⟨_, _, _, hfillc, hholes⟩ :=
      sendPacket_step sid hcont hbound hs hin hsend
    exact ⟨hfillc, hholes⟩

theorem wqRun : ValidRun 12 0 wqState0 [(wqPacket1, 0), (wqPacket2, 0)]
    wqState2 := by
  refine ValidRun.cons _ _ _ wqState1 _ _ ?_ ?_ ?_
    (ValidRun.cons _ _ _ wqState2 _ _ ?_ ?_ ?_ (ValidRun.nil _))
  · exact trivial
  · norm_num [W64, wqPacket1]
  · rfl
  · exact ⟨by norm_num [wqPacket2], by norm_num [wqPacket2]⟩
  · norm_num [W64, wqPacket2]
  · rfl

/-- Witness for C9 on the concrete two-packet run. -/
theorem sendPacket_queue_contiguity_witness :
    wqState2.queue[1].seq = wqState2.queue[0].seq + 1 ∧
    wqState2.queue[2].seq = wqState2.queue[1].seq + 1 := by
  have h := (sendPacket_queue_contiguity 12 0).1 wqState0 wqState2
    [(wqPacket1, 0), (wqPacket2, 0)]
    (by simp [wqState0, Contiguous])
    (by intro e he; simp [wqState0] at he)
    wqRun
  exact ⟨h 0 (by norm_num [wqState2]), h 1 (by norm_num [wqState2])⟩

/-- C2: refutation by evaluation.  Reading 2 samples from a buffer holding
one span of 2 frames (4 samples) pops the copied samples from the ring but
leaves the span's `remaining` untouched at 2 frames — `Span::consume` is
never called — so the span total (4 samples) no longer matches the ring (2
samples).  A second read of 6 samples then panics: the stale span directs
the loop to pop 4 samples from a ring holding 2. -/
theorem streamReaderRead_never_consumes_span :
    (streamReaderRead (0 : Int) 8
      { buffer := [1, 2, 3, 4],
        spans := [{ timestamp := some 0, remaining := 2 }], offset := none }
      0 2).map
        (fun r => (r.1.buffer.length, r.1.spans.map Span.remaining, r.2.1)) =
      some (2, [2], [1, 2]) ∧
    streamReaderRead (0 : Int) 8
      { buffer := [3, 4],
        spans := [{ timestamp := some 0, remaining := 2 }], offset := some 0 }
      0 6 = none := by
  constructor
  · rfl
  · rfl

/-- C3: when the spans run out before the output slice is filled (for this
code: no span has samples remaining when a non-empty read begins, since the
loop never shrinks a span), `StreamReader::read` zero-fills the whole
output, appends exactly one silence span with no PTS covering the whole
buffer duration (`buffer_size` samples = `buffer_size / CHANNELS` frames),
and notifies the waiting writers. -/
theorem streamReaderRead_underrun {α : Type} (z : α) (bufferSize : Nat)
    (locked : Locked α) (pts n : Nat)
    (halign : n % CHANNELS = 0) (hn : 0 < n)
    (hspans : dropZeroSpans locked.spans = []) :
    streamReaderRead z bufferSize locked pts n =
      some ({ buffer := locked.buffer ++
                List.replicate ((bufferSize / CHANNELS) * CHANNELS) z,
              spans := [{ timestamp := none,
                          remaining := bufferSize / CHANNELS }],
              offset := (locked.spans.head?.bind Span.timestamp).map
                (fun ts => (pts : Int) - (ts : Int)) },
            List.replicate n z, true) := by
  unfold streamReaderRead
  rw [if_neg (by omega)]
  obtain ⟨m, rfl⟩ : ∃ m, n = m + 1 := ⟨n - 1, by omega⟩
  simp only [readLoop, hspans, Locked.pushSilence, List.nil_append,
    Nat.add_eq_zero, and_false, if_false]
  simp

/-- Witness for C3: an empty buffer of size 8 and a 4-sample request. -/
theorem streamReaderRead_underrun_witness :
    streamReaderRead (0 : Int) 8
      { buffer := [], spans := [], offset := none } 5 4 =
      some ({ buffer := [0, 0, 0, 0, 0, 0, 0, 0],
              spans := [{ timestamp := none, remaining := 4 }],
              offset := none },
            [0, 0, 0, 0], true) := by
  have h := streamReaderRead_underrun (0 : Int) 8
    { buffer := [], spans := [], offset := none } 5 4
    (by decide) (by decide) (by decide)
  simpa using h

/-- C4 counterexample: the output buffer is empty (free space 8 ≥ 2 samples
to write), yet `StreamWriter::write` performs one condition-variable wait
before returning — the loop body waits unconditionally after each copied
chunk, so the claim that such a call returns without waiting is false. -/
theorem streamWriterWrite_waits_when_not_full :
    (streamWriterWrite 8 ([] : List (Locked Int → Locked Int))
      { buffer := [], spans := [], offset := none } 0 [1, 2] 2).map
        (fun r => r.2) = some 1 := by
  rfl

/-- C4 (amended): when the free space is at least the number of samples to
write (and the write is non-empty and frame-aligned), all samples are
placed in a single chunk — but the call performs exactly one
condition-variable wait before returning, rather than none. -/
theorem streamWriterWrite_fits {α : Type} (bufferSize : Nat)
    (waitEffects : List (Locked α → Locked α)) (locked : Locked α)
    (pts : Nat) (samples : List α) (fuel : Nat)
    (halign : samples.length % CHANNELS = 0)
    (hne : samples ≠ [])
    (hbuf : locked.buffer.length ≤ bufferSize)
    (hW : bufferSize < W64)
    (hfree : samples.length ≤ bufferSize - locked.buffer.length)
    (hfuel : 2 ≤ fuel) :
    streamWriterWrite bufferSize waitEffects locked pts samples fuel =
      some ((waitEffects.headD id) (locked.pushAudio pts samples).1, 1) := by
  obtain ⟨k, rfl⟩ : ∃ k, fuel = k + 1 + 1 := ⟨fuel - 2, by omega⟩
  unfold streamWriterWrite
  rw [if_neg (by omega)]
  have hlen : samples.length ≠ 0 := fun h => hne (List.length_eq_zero.mp h)
  have hfreeEq : wrapU64Sub bufferSize locked.buffer.length =
      bufferSize - locked.buffer.length :=
    wrapU64Sub_eq_sub hbuf hW
  have hmin : min samples.length
      (wrapU64Sub bufferSize locked.buffer.length) = samples.length := by
    rw [hfreeEq]
    omega
  simp only [writeLoop, if_neg hlen, hmin, List.take_length,
    List.drop_length, List.length_nil, if_pos rfl]
  simp

/-- Witness for C4's amended theorem at a concrete write. -/
theorem streamWriterWrite_fits_witness :
    streamWriterWrite 8 ([] : List (Locked Int → Locked Int))
      { buffer := [], spans := [], offset := none } 0 [1, 2] 2 =
      some ((([] : List (Locked Int → Locked Int)).headD id)
        (Locked.pushAudio { buffer := [], spans := [], offset := none }
          0 [1, 2]).1, 1) :=
  streamWriterWrite_fits 8 [] { buffer := [], spans := [], offset := none }
    0 [1, 2] 2 (by decide) (by decide) (by decide) (by norm_num [W64])
    (by decide) (by norm_num)

/-- C5 counterexample: a TIME packet with zero flags whose payload length
is exactly `size_of::<TimePacket>()` = 48 — without the padding up to the
audio packet length — is rejected by `Time::parse` and by
`Packet::parse`, because the code requires `len ≥ Time::LENGTH =
Audio::LENGTH` = 7712, not `len ≥ size_of::<TimePacket>()`. -/
theorem timeParse_rejects_unpadded :
    timeParse { magic := .time, flags := 0, len := sizeTimePacket } =
      none ∧
    packetParse 0 { magic := .time, flags := 0, len := sizeTimePacket } =
      none ∧
    sizeTimePacket < timePacketLength := by
  refine ⟨rfl, rfl, by decide⟩

/-- C5 (amended): a TIME packet with zero header flags is accepted exactly
when its payload length is at least `Time::LENGTH` — the padded audio
packet length `size_of(AudioHeader) + F·C·4` = 7712 — not merely
`size_of(TimePacket)`; padding beyond that length is tolerated. -/
theorem timeParse_accepts_iff (srLen : Nat) (p : WirePacket)
    (hmagic : p.magic = Magic.time) :
    packetParse srLen p = (timeParse p).map PacketKind.time ∧
    ((timeParse p).isSome ↔ timePacketLength ≤ p.len ∧ p.flags = 0) := by
  constructor
  · unfold packetParse
    rw [hmagic]
  · unfold timeParse
    constructor
    · intro h
      split at h
      · simp at h
      · split at h
        · simp at h
        · constructor <;> omega
    · intro ⟨h1, h2⟩
      rw [if_neg (by omega), if_neg (by omega)]
      rfl

/-- Witness for C5's amended theorem: an exactly padded TIME packet (7712
bytes of payload) parses successfully. -/
theorem timeParse_accepts_iff_witness :
    packetParse 0 { magic := .time, flags := 0, len := 7712 } =
      (timeParse { magic := .time, flags := 0, len := 7712 }).map
        PacketKind.time ∧
    ((timeParse { magic := .time, flags := 0, len := 7712 }).isSome ↔
      timePacketLength ≤ 7712 ∧ (0 : Nat) = 0) :=
  timeParse_accepts_iff 0 { magic := .time, flags := 0, len := 7712 } rfl

/-- C10: refutation.  For every non-empty frame-aligned input and any
encoder state whose current packet is not already full, `PcmFloat32::write`
panics on its first iteration: it copies at least one frame, so the slice
`&data[duration.as_buffer_offset()..0]` has a start index greater than its
end index 0. -/
theorem pcmFloat32Write_panics {α : Type} (st : PcmFloat32 α)
    (data : List α) (pts : Nat)
    (halign : data.length % CHANNELS = 0) (hne : data ≠ [])
    (hpkt : ∀ w p0, st.packet = some (w, p0) →
      w.written < FRAMES_PER_PACKET) :
    pcmFloat32Write st data pts = none := by
  have hC : CHANNELS = 2 := rfl
  have hF : FRAMES_PER_PACKET = 960 := rfl
  have hlen : 2 ≤ data.length := by
    have h0 : data.length ≠ 0 := fun h => hne (List.length_eq_zero.mp h)
    rw [hC] at halign
    omega
  have hrem : 0 < FRAMES_PER_PACKET -
      (st.packet.getD ({ written := 0, samples := [] }, pts)).1.written := by
    rcases hp : st.packet with _ | ⟨w, p0⟩
    · simp [hp, hF]
    · have := hpkt w p0 hp
      simp only [hp, Option.getD_some]
      omega
  have hcopy : ((st.packet.getD ({ written := 0, samples := [] },
      pts)).1.write data).2 * CHANNELS ≠ 0 := by
    simp only [AudioWriter.write]
    rw [hC, hF]
    rw [hC] at halign
    rw [hF] at hrem
    omega
  unfold pcmFloat32Write
  simp only [pcmWriteLoop]
  rw [if_neg (by omega), if_neg hcopy]

/-- Witness for C10 at a concrete failing input: one frame of audio into a
fresh encoder. -/
theorem pcmFloat32Write_panics_witness :
    pcmFloat32Write (PcmFloat32.new (α := Int)) [1, 2] 0 = none :=
  pcmFloat32Write_panics PcmFloat32.new [1, 2] 0 (by decide) (by decide)
    (by intro w p0 h; simp [PcmFloat32.new] at h)

end Bark
